import Mathlib

/-!
Verification of the brrr task-execution engine (TypeScript sources) via a
shallow embedding in Lean.  Machinery from `src/ts/src/models/memory.ts`,
`src/ts/src/models/task.ts`, `src/codecs/naive-codec.ts`, `src/core/brrr.ts`
and `src/core/wrrrker.ts` is translated into executable Lean definitions, and
the behavioural properties of the specification are proved (or refuted)
against those definitions.
-/

namespace Brrr

/-- Error taxonomy of the engine, from `src/libs/error.ts`.  `defer` is the
control-flow signal of `src/models/defer.ts`, carrying the memo keys of the
child calls (the full call objects carry more data, but the error identity
used by `catch` clauses is the constructor). -/
inductive Err where
  | compareMismatch
  | casRetryLimit (limit : Nat)
  | valueNotFound (memoKey : String)
  | keyAlreadyExists (memoKey : String)
  | spawnLimitHit (limit : Nat) (rootId : String) (memoKey : String)
  | workerAlreadyRunning
  | queueEmpty
  | queueClosed
  | notSetup
  | deferSignal (calls : List String)
  | userError (tag : Nat)
deriving DecidableEq, Repr

/-- The `err instanceof CompareMismatchError` test used by `withCas` and
`setValue`. -/
def Err.isCompareMismatch : Err → Bool
  | .compareMismatch => true
  | _ => false

/-- The `e instanceof MemoryValueNotFoundError` test used by `Task.invoke`
and the pending-returns algorithms. -/
def Err.isValueNotFound : Err → Bool
  | .valueNotFound _ => true
  | _ => false

/-- The `defer instanceof Defer` test used by `gather` and the worker. -/
def Err.isDefer : Err → Bool
  | .deferSignal _ => true
  | _ => false

/-- `Memory.CAS_RETRY_LIMIT` (memory.ts line 31). -/
def CAS_RETRY_LIMIT : Nat := 100

/-- Whether one invocation outcome of the `withCas` body raised
`CompareMismatch`. -/
def outcomeIsCM (r : Except Err Unit) : Bool :=
  match r with
  | .error e => e.isCompareMismatch
  | .ok _ => false

/-- The retry loop of `Memory.withCas` (memory.ts lines 133-147), with the
body `fn` modelled by the outcome of its successive invocations
(`fn attempt` is what the attempt-th invocation does).  Returns the overall
outcome together with the number of times `fn` was invoked.  `fuel` equals
`CAS_RETRY_LIMIT + 1 - attempt` on every reachable call. -/
def withCasGo (fn : Nat → Except Err Unit) : Nat → Nat → Except Err Unit × Nat
  | 0, _ => (Except.ok (), 0)
  | fuel + 1, attempt =>
    match fn attempt with
    | .ok _ => (Except.ok (), 1)
    | .error e =>
      if e.isCompareMismatch then
        if attempt = CAS_RETRY_LIMIT then
          (Except.error (Err.casRetryLimit CAS_RETRY_LIMIT), 1)
        else
          let r := withCasGo fn fuel (attempt + 1)
          (r.1, r.2 + 1)
      else (Except.error e, 1)

/-- `Memory.withCas(fn)`: run the loop from attempt 0. -/
def withCasRun (fn : Nat → Except Err Unit) : Except Err Unit × Nat :=
  withCasGo fn (CAS_RETRY_LIMIT + 1) 0

/-- Index of the first invocation whose outcome is not `CompareMismatch`,
among the attempts the loop is permitted to make. -/
def firstNonCM (fn : Nat → Except Err Unit) : Option Nat :=
  (List.range (CAS_RETRY_LIMIT + 1)).find? (fun i => !(outcomeIsCM (fn i)))

theorem withCasGo_spec (fn : Nat → Except Err Unit) :
    ∀ fuel attempt, attempt + fuel = CAS_RETRY_LIMIT + 1 → fuel ≠ 0 →
      withCasGo fn fuel attempt =
        match (List.range' attempt fuel).find? (fun i => !(outcomeIsCM (fn i))) with
        | some k => (fn k, k + 1 - attempt)
        | none => (Except.error (Err.casRetryLimit CAS_RETRY_LIMIT), fuel) := by
  intro fuel
  induction fuel with
  | zero => intro attempt _ hne; exact absurd rfl hne
  | succ fuel ih =>
    intro attempt hsum _
    rw [List.range'_succ]
    rw [List.find?_cons]
    by_cases hcm : outcomeIsCM (fn attempt) = true
    · -- the attempt-th invocation raised CompareMismatch
      simp only [hcm, Bool.not_true]
      obtain ⟨e, he⟩ : ∃ e, fn attempt = Except.error e := by
        cases h : fn attempt with
        | ok v => rw [h] at hcm; simp [outcomeIsCM] at hcm
        | error e => exact ⟨e, rfl⟩
      have hecm : e.isCompareMismatch = true := by
        rw [he] at hcm; simpa [outcomeIsCM] using hcm
      by_cases hlim : attempt = CAS_RETRY_LIMIT
      · -- final permitted attempt: fuel must be 0 for the recursion
        have hfuel : fuel = 0 := by omega
        subst hfuel
        simp only [withCasGo, he, hecm, if_pos hlim, List.range'_zero,
          List.find?_nil]
        simp
      · have hfuel : fuel ≠ 0 := by omega
        have hrec := ih (attempt + 1) (by omega) hfuel
        simp only [withCasGo, he, hecm, if_pos rfl, if_neg hlim]
        rw [hrec]
        cases hfind : (List.range' (attempt + 1) fuel).find?
            (fun i => !(outcomeIsCM (fn i))) with
        | none => simp
        | some k =>
          have hk : attempt + 1 ≤ k := by
            have hmem := List.mem_of_find?_eq_some hfind
            have := (List.mem_range'_1.mp hmem).1
            omega
          simp only [if_pos trivial, Prod.mk.injEq]
          exact ⟨by trivial, by omega⟩
    · -- the attempt-th invocation did not raise CompareMismatch
      simp only [hcm, Bool.not_false, if_pos rfl]
      cases h : fn attempt with
      | ok v => simp [withCasGo, h]
      | error e =>
        have : e.isCompareMismatch = false := by
          rw [h] at hcm; simpa [outcomeIsCM] using hcm
        simp [withCasGo, h, this]

/-- C7 (amended): `withCas(fn)` invokes `fn` at most `CAS_RETRY_LIMIT + 1 =
101` times (the loop runs `attempt = 0 .. CAS_RETRY_LIMIT` inclusive): it
returns the outcome of the first invocation that does not raise
`CompareMismatch` — returning on success, propagating any other error
immediately — having invoked `fn` exactly `k + 1` times where `k` is that
invocation's index, and raises `CasRetryLimit` after `CAS_RETRY_LIMIT + 1`
invocations when every permitted invocation raised `CompareMismatch`. -/
theorem withCas_retry_spec (fn : Nat → Except Err Unit) :
    withCasRun fn =
      (match firstNonCM fn with
       | some k => (fn k, k + 1)
       | none => (Except.error (Err.casRetryLimit CAS_RETRY_LIMIT),
                  CAS_RETRY_LIMIT + 1)) ∧
    (withCasRun fn).2 ≤ CAS_RETRY_LIMIT + 1 := by
  have hmain := withCasGo_spec fn (CAS_RETRY_LIMIT + 1) 0 (by omega) (by omega)
  have hrange : List.range' 0 (CAS_RETRY_LIMIT + 1) = List.range (CAS_RETRY_LIMIT + 1) := by
    rw [List.range_eq_range']
  rw [hrange] at hmain
  unfold withCasRun firstNonCM
  constructor
  · rw [hmain]
    cases hfind : (List.range (CAS_RETRY_LIMIT + 1)).find?
        (fun i => !(outcomeIsCM (fn i))) with
    | none => simp
    | some k => simp
  · rw [hmain]
    cases hfind : (List.range (CAS_RETRY_LIMIT + 1)).find?
        (fun i => !(outcomeIsCM (fn i))) with
    | none => simp
    | some k =>
      have hmem := List.mem_of_find?_eq_some hfind
      have hk := List.mem_range.mp hmem
      simp only
      omega

/-- State touched by `Brrr.putJob`: the spawn counters of the cache
(`InMemoryStore.spawnCountStore`, updated by `incr`) and the message queue
(list of message bodies, enqueue appends). -/
structure EngSt where
  counters : String → Nat
  queue : List String

/-- `Brrr.SPAWN_LIMIT` (brrr.ts line 31). -/
def SPAWN_LIMIT : Nat := 500

/-- `Cache.incr(key)`: atomic increment returning the post-increment value
(in-memory-store.ts lines 66-70). -/
def incr (st : EngSt) (key : String) : Nat × EngSt :=
  let v := st.counters key + 1
  (v, { st with counters := fun k => if k = key then v else st.counters k })

/-- `Brrr.putJob(memoKey, rootId)` (brrr.ts lines 91-97): increment
`brrr_count/<rootId>`; if the post-increment value exceeds `SPAWN_LIMIT`
raise `SpawnLimit`, else enqueue `rootId + "/" + memoKey`.  Returns the
raised error (if any) together with the state after the call. -/
def putJob (st : EngSt) (memoKey rootId : String) : Option Err × EngSt :=
  let r := incr st ("brrr_count/" ++ rootId)
  if r.1 > SPAWN_LIMIT then
    (some (Err.spawnLimitHit SPAWN_LIMIT rootId memoKey), r.2)
  else
    (none, { r.2 with queue := r.2.queue ++ [rootId ++ "/" ++ memoKey] })

/-- `n` successive `putJob` calls for the same memo key and root, stopping at
the first error. -/
def putJobIter (st : EngSt) (memoKey rootId : String) : Nat → Option Err × EngSt
  | 0 => (none, st)
  | n + 1 =>
    let r := putJob st memoKey rootId
    match r.1 with
    | none => putJobIter r.2 memoKey rootId n
    | some e => (some e, r.2)

/-- The engine state before any job of a workflow was enqueued. -/
def freshEngSt : EngSt := ⟨fun _ => 0, []⟩

theorem putJob_fst (st : EngSt) (memoKey rootId : String) :
    (putJob st memoKey rootId).1 =
      if st.counters ("brrr_count/" ++ rootId) + 1 > SPAWN_LIMIT then
        some (Err.spawnLimitHit SPAWN_LIMIT rootId memoKey)
      else none := by
  simp only [putJob, incr]
  split <;> simp_all

theorem putJob_counters (st : EngSt) (memoKey rootId : String) :
    (putJob st memoKey rootId).2.counters ("brrr_count/" ++ rootId) =
      st.counters ("brrr_count/" ++ rootId) + 1 := by
  simp only [putJob, incr]
  split <;> simp

theorem putJob_queue_ok (st : EngSt) (memoKey rootId : String)
    (h : st.counters ("brrr_count/" ++ rootId) + 1 ≤ SPAWN_LIMIT) :
    (putJob st memoKey rootId).2.queue =
      st.queue ++ [rootId ++ "/" ++ memoKey] := by
  simp only [putJob, incr]
  rw [if_neg (by omega)]

theorem putJob_queue_fail (st : EngSt) (memoKey rootId : String)
    (h : st.counters ("brrr_count/" ++ rootId) + 1 > SPAWN_LIMIT) :
    (putJob st memoKey rootId).2.queue = st.queue := by
  simp only [putJob, incr]
  rw [if_pos (by omega)]

theorem putJobIter_ok (memoKey rootId : String) :
    ∀ n st, st.counters ("brrr_count/" ++ rootId) + n ≤ SPAWN_LIMIT →
      (putJobIter st memoKey rootId n).1 = none ∧
      (putJobIter st memoKey rootId n).2.counters ("brrr_count/" ++ rootId) =
        st.counters ("brrr_count/" ++ rootId) + n := by
  intro n
  induction n with
  | zero => intro st _; exact ⟨rfl, rfl⟩
  | succ n ih =>
    intro st hle
    have h1 : (putJob st memoKey rootId).1 = none := by
      rw [putJob_fst]; rw [if_neg (by omega)]
    have h2 := putJob_counters st memoKey rootId
    have hrec := ih (putJob st memoKey rootId).2 (by rw [h2]; omega)
    simp only [putJobIter, h1]
    exact ⟨hrec.1, by rw [hrec.2, h2]; omega⟩

theorem putJobIter_fail (memoKey rootId : String) :
    ∀ n st, st.counters ("brrr_count/" ++ rootId) + n = SPAWN_LIMIT →
      (putJobIter st memoKey rootId (n + 1)).1 =
        some (Err.spawnLimitHit SPAWN_LIMIT rootId memoKey) := by
  intro n
  induction n with
  | zero =>
    intro st hc
    have h1 : (putJob st memoKey rootId).1 =
        some (Err.spawnLimitHit SPAWN_LIMIT rootId memoKey) := by
      rw [putJob_fst]; rw [if_pos (by omega)]
    simp [putJobIter, h1]
  | succ n ih =>
    intro st hc
    have h1 : (putJob st memoKey rootId).1 = none := by
      rw [putJob_fst]; rw [if_neg (by omega)]
    have h2 := putJob_counters st memoKey rootId
    simp only [putJobIter, h1]
    exact ih _ (by rw [h2]; omega)

/-- C3: `putJob(memoKey, rootId)` first increments the per-root counter
`brrr_count/<rootId>`; if the post-increment value exceeds `SPAWN_LIMIT`
(500) it raises `SpawnLimit` and leaves the queue untouched, otherwise it
raises nothing and appends exactly the one message `rootId + "/" + memoKey`;
consequently, starting from a fresh root, `SPAWN_LIMIT` successive `putJob`
calls all succeed while `SPAWN_LIMIT + 1` calls end in `SpawnLimit`. -/
theorem putJob_spawn_limit (st : EngSt) (memoKey rootId : String) :
    ((putJob st memoKey rootId).2.counters ("brrr_count/" ++ rootId) =
       st.counters ("brrr_count/" ++ rootId) + 1) ∧
    (st.counters ("brrr_count/" ++ rootId) + 1 > SPAWN_LIMIT →
       (putJob st memoKey rootId).1 =
         some (Err.spawnLimitHit SPAWN_LIMIT rootId memoKey) ∧
       (putJob st memoKey rootId).2.queue = st.queue) ∧
    (st.counters ("brrr_count/" ++ rootId) + 1 ≤ SPAWN_LIMIT →
       (putJob st memoKey rootId).1 = none ∧
       (putJob st memoKey rootId).2.queue =
         st.queue ++ [rootId ++ "/" ++ memoKey]) ∧
    (putJobIter freshEngSt memoKey rootId SPAWN_LIMIT).1 = none ∧
    (putJobIter freshEngSt memoKey rootId (SPAWN_LIMIT + 1)).1 =
      some (Err.spawnLimitHit SPAWN_LIMIT rootId memoKey) := by
  refine ⟨putJob_counters st memoKey rootId, ?_, ?_, ?_, ?_⟩
  · intro h
    exact ⟨by rw [putJob_fst]; rw [if_pos h], putJob_queue_fail st memoKey rootId h⟩
  · intro h
    exact ⟨by rw [putJob_fst]; rw [if_neg (by omega)], putJob_queue_ok st memoKey rootId h⟩
  · exact (putJobIter_ok memoKey rootId SPAWN_LIMIT freshEngSt (by simp [freshEngSt])).1
  · exact putJobIter_fail memoKey rootId SPAWN_LIMIT freshEngSt (by simp [freshEngSt])

/-- C3 witness: concrete instantiation — from a fresh state the first call
succeeds and enqueues its message, and the hypothesis is dischargeable. -/
theorem putJob_spawn_limit_witness :
    (freshEngSt.counters ("brrr_count/" ++ "r") + 1 ≤ SPAWN_LIMIT) ∧
    (putJob freshEngSt "k" "r").1 = none ∧
    (putJob freshEngSt "k" "r").2.queue = freshEngSt.queue ++ ["r" ++ "/" ++ "k"] := by
  have h := putJob_spawn_limit freshEngSt "k" "r"
  have hle : freshEngSt.counters ("brrr_count/" ++ "r") + 1 ≤ SPAWN_LIMIT := by
    decide
  exact ⟨hle, (h.2.2.1 hle).1, (h.2.2.1 hle).2⟩

/-- The `inv instanceof Defer then ok, else rethrow` test of one awaited
invocation in `gather`: `true` when the invocation either returned or raised
`Defer`. -/
def okOrDefer {R : Type} (inv : Except Err R) : Bool :=
  match inv with
  | .ok _ => true
  | .error e => e.isDefer

/-- Child calls carried by an invocation outcome (empty unless the outcome
raised `Defer`). -/
def deferredOf {R : Type} (inv : Except Err R) : List String :=
  match inv with
  | .error (.deferSignal cs) => cs
  | _ => []

/-- The results of the invocations that returned normally, in order. -/
def okListOf {R : Type} (invs : List (Except Err R)) : List R :=
  invs.filterMap (fun inv => match inv with | .ok r => some r | _ => none)

/-- Concatenation of the child calls of every `Defer` raised by the
invocations, in order. -/
def deferredCalls {R : Type} (invs : List (Except Err R)) : List String :=
  (invs.map deferredOf).flatten

/-- The loop of `Brrr.gather` in worker context (brrr.ts lines 151-166):
iterate the invocations, pushing results and accumulating deferred calls;
rethrow a non-`Defer` error at once; at the end raise one combined `Defer`
when any calls were collected, else return the results. -/
def gatherGo {R : Type} :
    List (Except Err R) → List R → List String → Except Err (List R)
  | [], results, calls =>
    if calls.isEmpty then Except.ok results
    else Except.error (Err.deferSignal calls)
  | inv :: rest, results, calls =>
    match inv with
    | .ok r => gatherGo rest (results ++ [r]) calls
    | .error (.deferSignal cs) => gatherGo rest results (calls ++ cs)
    | .error e => Except.error e

/-- `Brrr.gather(...invocations)` in worker context, the invocations modelled
by the outcome awaiting each of them produces. -/
def gather {R : Type} (invs : List (Except Err R)) : Except Err (List R) :=
  gatherGo invs [] []

theorem gatherGo_spec {R : Type} :
    ∀ (invs : List (Except Err R)) results calls,
      (∀ inv ∈ invs, okOrDefer inv = true) →
      gatherGo invs results calls =
        if (calls ++ deferredCalls invs).isEmpty
        then Except.ok (results ++ okListOf invs)
        else Except.error (Err.deferSignal (calls ++ deferredCalls invs)) := by
  intro invs
  induction invs with
  | nil =>
    intro results calls _
    simp [gatherGo, deferredCalls, okListOf]
  | cons inv rest ih =>
    intro results calls hok
    have hrest : ∀ i ∈ rest, okOrDefer i = true := fun i hi => hok i (by simp [hi])
    have hinv : okOrDefer inv = true := hok inv (by simp)
    cases inv with
    | ok r =>
      have := ih (results ++ [r]) calls hrest
      simp only [gatherGo]
      rw [this]
      simp [deferredCalls, okListOf, deferredOf]
    | error e =>
      cases e with
      | deferSignal cs =>
        have := ih results (calls ++ cs) hrest
        simp only [gatherGo]
        rw [this]
        simp [deferredCalls, okListOf, deferredOf]
      | compareMismatch => simp [okOrDefer, Err.isDefer] at hinv
      | casRetryLimit l => simp [okOrDefer, Err.isDefer] at hinv
      | valueNotFound k => simp [okOrDefer, Err.isDefer] at hinv
      | keyAlreadyExists k => simp [okOrDefer, Err.isDefer] at hinv
      | spawnLimitHit l r k => simp [okOrDefer, Err.isDefer] at hinv
      | workerAlreadyRunning => simp [okOrDefer, Err.isDefer] at hinv
      | queueEmpty => simp [okOrDefer, Err.isDefer] at hinv
      | queueClosed => simp [okOrDefer, Err.isDefer] at hinv
      | notSetup => simp [okOrDefer, Err.isDefer] at hinv
      | userError t => simp [okOrDefer, Err.isDefer] at hinv

theorem gatherGo_error {R : Type} (e : Err) (he : e.isDefer = false) :
    ∀ (pre : List (Except Err R)), (∀ inv ∈ pre, okOrDefer inv = true) →
      ∀ post results calls,
        gatherGo (pre ++ Except.error e :: post) results calls =
          Except.error e := by
  intro pre
  induction pre with
  | nil =>
    intro _ post results calls
    cases e <;> simp_all [gatherGo, Err.isDefer]
  | cons inv rest ih =>
    intro hok post results calls
    have hrest : ∀ i ∈ rest, okOrDefer i = true := fun i hi => hok i (by simp [hi])
    have hinv : okOrDefer inv = true := hok inv (by simp)
    cases inv with
    | ok r => simpa [gatherGo] using ih hrest post (results ++ [r]) calls
    | error e2 =>
      cases e2 <;> simp_all [gatherGo, okOrDefer, Err.isDefer]

/-- C4: in worker context `gather` awaits every invocation in order; when all
return it yields the list of all results in invocation order; when at least
one raises `Defer` (and the rest return or defer) it still processes the
remaining invocations and raises a single `Defer` whose calls are the
concatenation of every deferred child call; a non-`Defer` error propagates
immediately, regardless of the invocations after it. -/
theorem gather_fan_in {R : Type} (invs : List (Except Err R)) :
    ((∀ inv ∈ invs, ∃ r, inv = Except.ok r) →
       gather invs = Except.ok (okListOf invs)) ∧
    ((∀ inv ∈ invs, okOrDefer inv = true) → deferredCalls invs ≠ [] →
       gather invs = Except.error (Err.deferSignal (deferredCalls invs))) ∧
    (∀ (pre post : List (Except Err R)) (e : Err), e.isDefer = false →
       (∀ inv ∈ pre, okOrDefer inv = true) →
       invs = pre ++ Except.error e :: post →
       gather invs = Except.error e) := by
  refine ⟨?_, ?_, ?_⟩
  · intro hall
    have hok : ∀ inv ∈ invs, okOrDefer inv = true := by
      intro inv hi
      obtain ⟨r, hr⟩ := hall inv hi
      simp [hr, okOrDefer]
    have hdef : deferredCalls invs = [] := by
      simp only [deferredCalls, List.flatten_eq_nil_iff]
      intro l hl
      simp only [List.mem_map] at hl
      obtain ⟨inv, hi, hrfl⟩ := hl
      obtain ⟨r, hr⟩ := hall inv hi
      simp [← hrfl, hr, deferredOf]
    have := gatherGo_spec invs [] [] hok
    simp [gather, this, hdef]
  · intro hok hne
    have := gatherGo_spec invs [] [] hok
    have hne2 : (deferredCalls invs).isEmpty = false := by
      cases h : deferredCalls invs with
      | nil => exact absurd h hne
      | cons a l => simp
    simp [gather, this, hne2]
  · intro pre post e he hok heq
    subst heq
    exact gatherGo_error e he pre hok post [] []

/-- C4 witness: two results and two deferred invocations combine into one
`Defer` carrying both child calls in order. -/
theorem gather_fan_in_witness :
    gather [Except.ok 1, Except.error (Err.deferSignal ["c1"]),
            Except.ok 2, Except.error (Err.deferSignal ["c2", "c3"])] =
      Except.error (Err.deferSignal ["c1", "c2", "c3"]) := by
  have h := (gather_fan_in [Except.ok 1, Except.error (Err.deferSignal ["c1"]),
      Except.ok (2 : Nat), Except.error (Err.deferSignal ["c2", "c3"])]).2.1
  have h2 := h (by decide) (by decide)
  simpa [deferredCalls, deferredOf] using h2

/-- JSON values: the argument and return domain handled by the naive codec
(`JSON.stringify` / `JSON.parse` in naive-codec.ts). -/
inductive Json where
  | null
  | bool (b : Bool)
  | num (n : Int)
  | str (s : String)
  | arr (items : List Json)
  | obj (members : List (String × Json))

/-- Lower-case hexadecimal digit, for the `\u00XX` escapes of
`JSON.stringify`. -/
def hexDigit (n : Nat) : Char :=
  if n < 10 then Char.ofNat (48 + n) else Char.ofNat (87 + n)

/-- How `JSON.stringify` renders one character inside a string literal:
quote, backslash and control characters are escaped, everything else is
emitted verbatim. -/
def escapeChar (c : Char) : String :=
  if c = Char.ofNat 34 then "\\\""
  else if c = Char.ofNat 92 then "\\\\"
  else if c = Char.ofNat 8 then "\\b"
  else if c = Char.ofNat 9 then "\\t"
  else if c = Char.ofNat 10 then "\\n"
  else if c = Char.ofNat 12 then "\\f"
  else if c = Char.ofNat 13 then "\\r"
  else if c.toNat < 32 then
    "\\u00" ++ String.mk [hexDigit (c.toNat / 16), hexDigit (c.toNat % 16)]
  else String.mk [c]

/-- `JSON.stringify` body of a string literal. -/
def escapeString (s : String) : String :=
  String.join (s.data.map escapeChar)

mutual
/-- JS `JSON.stringify` on an argument value (no spacing, members in
insertion order — stringify performs no key sorting). -/
def stringify : Json → String
  | .null => "null"
  | .bool true => "true"
  | .bool false => "false"
  | .num n => toString n
  | .str s => "\"" ++ escapeString s ++ "\""
  | .arr items => "[" ++ stringifyItems items ++ "]"
  | .obj members => "\x7b" ++ stringifyMembers members ++ "\x7d"

/-- Comma-separated `JSON.stringify` of array items. -/
def stringifyItems : List Json → String
  | [] => ""
  | [x] => stringify x
  | x :: y :: rest => stringify x ++ "," ++ stringifyItems (y :: rest)

/-- Comma-separated `JSON.stringify` of object members, in insertion
order. -/
def stringifyMembers : List (String × Json) → String
  | [] => ""
  | [(k, v)] => "\"" ++ escapeString k ++ "\":" ++ stringify v
  | (k, v) :: m :: rest =>
    "\"" ++ escapeString k ++ "\":" ++ stringify v ++ "," ++
      stringifyMembers (m :: rest)
end

/-- A call produced by the default codec. -/
structure NaiveCall where
  taskName : String
  args : List Json
  memoKey : String

/-- `NaiveCall`'s constructor (naive-codec.ts lines 10-15): the memo key is
`JSON.stringify([taskName, args])`. -/
def createCall (taskName : String) (args : List Json) : NaiveCall :=
  { taskName := taskName
    args := args
    memoKey := stringify (Json.arr [Json.str taskName, Json.arr args]) }

/-- C6 (the code violates the claim): with the default codec the memo key is
plain `JSON.stringify([taskName, args])`, which preserves the insertion
order of map keys, so `createCall "f" [\x7bb:2, a:1\x7d]` and
`createCall "f" [\x7ba:1, b:2\x7d]` derive different memo keys. -/
theorem naiveCall_memoKey_order_dependent :
    (createCall "f" [Json.obj [("b", Json.num 2), ("a", Json.num 1)]]).memoKey =
      "[\"f\",[\x7b\"b\":2,\"a\":1\x7d]]" ∧
    (createCall "f" [Json.obj [("a", Json.num 1), ("b", Json.num 2)]]).memoKey =
      "[\"f\",[\x7b\"a\":1,\"b\":2\x7d]]" ∧
    ¬ ((createCall "f" [Json.obj [("b", Json.num 2), ("a", Json.num 1)]]).memoKey =
       (createCall "f" [Json.obj [("a", Json.num 1), ("b", Json.num 2)]]).memoKey) := by
  refine ⟨by decide, by decide, by decide⟩

/-- JS `string.split(sep)` for a one-character separator, over the string's
character list: splits at every occurrence of the separator. -/
def splitOnChar (sep : Char) : List Char → List (List Char)
  | [] => [[]]
  | c :: cs =>
    if c = sep then [] :: splitOnChar sep cs
    else
      match splitOnChar sep cs with
      | r :: rs => (c :: r) :: rs
      | [] => [[c]]

/-- `Wrrrker.parseCallId` (wrrrker.ts lines 22-28):
`const [rootId, memoKey] = callId.split('/')` — the first two components of
the split.  When the split yields a single component the JS destructuring
leaves `memoKey` undefined, modelled as `none`. -/
def parseCallId (callId : String) : String × Option String :=
  match splitOnChar '/' callId.data with
  | r :: m :: _ => (String.mk r, some (String.mk m))
  | [r] => (String.mk r, none)
  | [] => ("", none)

theorem splitOnChar_no_sep (sep : Char) :
    ∀ l : List Char, sep ∉ l → splitOnChar sep l = [l] := by
  intro l
  induction l with
  | nil => intro _; rfl
  | cons c cs ih =>
    intro h
    have hc : ¬ c = sep := fun hcs => h (hcs ▸ List.mem_cons_self c cs)
    have hcs : sep ∉ cs := fun hi => h (List.mem_cons_of_mem c hi)
    simp only [splitOnChar, if_neg hc, ih hcs]

theorem splitOnChar_append (sep : Char) :
    ∀ a b : List Char, sep ∉ a →
      splitOnChar sep (a ++ sep :: b) = a :: splitOnChar sep b := by
  intro a
  induction a with
  | nil => intro b _; simp [splitOnChar]
  | cons c cs ih =>
    intro b h
    have hc : ¬ c = sep := fun hcs => h (hcs ▸ List.mem_cons_self c cs)
    have hcs : sep ∉ cs := fun hi => h (List.mem_cons_of_mem c hi)
    simp only [List.cons_append, splitOnChar, if_neg hc, List.append_eq]
    rw [ih b hcs]

/-- C8 (amended): the queue-message grammar round-trips for every `rootId`
and `memoKey` that contain no `'/'` — the parse recovers exactly the two
halves.  (Root ids are base64-url and never contain `'/'`; but the default
codec CAN produce memo keys containing `'/'`, and for those the parse
truncates the memo key at its first `'/'`, see the counterexample.) -/
theorem parseCallId_round_trip (rootId memoKey : String)
    (hr : '/' ∉ rootId.data) (hm : '/' ∉ memoKey.data) :
    parseCallId (rootId ++ "/" ++ memoKey) = (rootId, some memoKey) := by
  have hdata : (rootId ++ "/" ++ memoKey).data =
      rootId.data ++ '/' :: memoKey.data := by
    simp [String.data_append]
  unfold parseCallId
  rw [hdata, splitOnChar_append '/' rootId.data memoKey.data hr,
    splitOnChar_no_sep '/' memoKey.data hm]

/-- C8 witness: a slash-free root id and memo key round-trip. -/
theorem parseCallId_round_trip_witness :
    ('/' ∉ "rOotId42".data) ∧ ('/' ∉ "[\"f\",[1,2]]".data) ∧
    parseCallId ("rOotId42" ++ "/" ++ "[\"f\",[1,2]]") =
      ("rOotId42", some "[\"f\",[1,2]]") := by
  refine ⟨by decide, by decide, ?_⟩
  exact parseCallId_round_trip "rOotId42" "[\"f\",[1,2]]" (by decide) (by decide)

/-- C8 counterexample: the default codec produces the memo key
`["a/b",[]]` for task name `a/b` (JSON does not escape slashes), and the
worker's parse then truncates the memo key at its first slash instead of
recovering the entire remainder after the first slash. -/
theorem parseCallId_truncates_memoKey :
    (createCall "a/b" []).memoKey = "[\"a/b\",[]]" ∧
    parseCallId ("r" ++ "/" ++ (createCall "a/b" []).memoKey) =
      ("r", some "[\"a") ∧
    ¬ (parseCallId ("r" ++ "/" ++ (createCall "a/b" []).memoKey) =
       ("r", some (createCall "a/b" []).memoKey)) := by
  refine ⟨by decide, by decide, by decide⟩

/-- A decoded `pending_returns` record (pending-returns.ts): the
`scheduledAt` marker (`none` = child job not yet enqueued) and the set of
registered parent keys.  The encoding sorts the set and the scalar format is
stable, so two records are byte-equal iff they are equal as records. -/
structure PRec where
  scheduledAt : Option Nat
  returns : Finset String
deriving DecidableEq

/-- One sequential (interference-free) run of `Memory.addPendingReturn`
(memory.ts lines 82-117) against the current `pending_returns/<childKey>`
record: yields the record stored after the call and whether `scheduleJob`
was invoked.  Without interference the `setNewValue` / `compareAndSet`
writes succeed on the first `withCas` attempt. -/
def addPendingReturn (st : Option PRec) (newReturn : String) (now : Nat) :
    Option PRec × Bool :=
  match st with
  | some existing =>
    let withParent : PRec :=
      if newReturn ∈ existing.returns then existing
      else { existing with returns := insert newReturn existing.returns }
    match existing.scheduledAt with
    | none =>
      (some { withParent with scheduledAt := some now }, true)
    | some _ =>
      if newReturn ∈ existing.returns then (some existing, false)
      else (some withParent, false)
  | none =>
    (some { scheduledAt := some now, returns := {newReturn} }, true)

theorem addPendingReturn_scheduled_skips (r : PRec) (t : Nat)
    (ht : r.scheduledAt = some t) (p : String) (now : Nat) :
    (addPendingReturn (some r) p now).2 = false := by
  by_cases hmem : p ∈ r.returns <;> simp [addPendingReturn, ht, hmem]

/-- C2: `addPendingReturn(childKey, parentKey, scheduleJob)` invokes
`scheduleJob` iff the record it observes (or freshly creates — a fresh
record starts with empty `scheduledAt`) has an empty `scheduledAt`; after a
successful call the stored record contains `parentKey` and has `scheduledAt`
set, so any later `addPendingReturn` for the same child invokes no
`scheduleJob`. -/
theorem addPendingReturn_spec (st : Option PRec) (parentKey : String)
    (now : Nat) :
    ((addPendingReturn st parentKey now).2 = true ↔
       (∀ r, st = some r → r.scheduledAt = none)) ∧
    (∃ r', (addPendingReturn st parentKey now).1 = some r' ∧
       parentKey ∈ r'.returns ∧ r'.scheduledAt = some now ∨
       (addPendingReturn st parentKey now).1 = some r' ∧
       parentKey ∈ r'.returns ∧ r'.scheduledAt ≠ none) ∧
    (∀ r', (addPendingReturn st parentKey now).1 = some r' →
       ∀ p2 now2, (addPendingReturn (some r') p2 now2).2 = false) := by
  cases st with
  | none =>
    refine ⟨by simp [addPendingReturn], ?_, ?_⟩
    · refine ⟨⟨some now, {parentKey}⟩, Or.inl ⟨rfl, ?_, rfl⟩⟩
      exact Finset.mem_singleton_self parentKey
    · intro r' h p2 now2
      have h2 : (⟨some now, {parentKey}⟩ : PRec) = r' := by
        simpa [addPendingReturn] using h
      subst h2
      exact addPendingReturn_scheduled_skips _ now rfl p2 now2
  | some existing =>
    cases hs : existing.scheduledAt with
    | none =>
      by_cases hmem : parentKey ∈ existing.returns
      · refine ⟨by simp [addPendingReturn, hs, hmem], ?_, ?_⟩
        · exact ⟨⟨some now, existing.returns⟩,
            Or.inl ⟨by simp [addPendingReturn, hs, hmem], hmem, rfl⟩⟩
        · intro r' h p2 now2
          have h2 : (⟨some now, existing.returns⟩ : PRec) = r' := by
            simpa [addPendingReturn, hs, hmem] using h
          subst h2
          exact addPendingReturn_scheduled_skips _ now rfl p2 now2
      · refine ⟨by simp [addPendingReturn, hs, hmem], ?_, ?_⟩
        · exact ⟨⟨some now, insert parentKey existing.returns⟩,
            Or.inl ⟨by simp [addPendingReturn, hs, hmem],
              Finset.mem_insert_self _ _, rfl⟩⟩
        · intro r' h p2 now2
          have h2 : (⟨some now, insert parentKey existing.returns⟩ : PRec) = r' := by
            simpa [addPendingReturn, hs, hmem] using h
          subst h2
          exact addPendingReturn_scheduled_skips _ now rfl p2 now2
    | some t =>
      by_cases hmem : parentKey ∈ existing.returns
      · refine ⟨by simp [addPendingReturn, hs, hmem], ?_, ?_⟩
        · refine ⟨existing, Or.inr ⟨by simp [addPendingReturn, hs, hmem], hmem, ?_⟩⟩
          simp [hs]
        · intro r' h p2 now2
          have h2 : existing = r' := by
            simpa [addPendingReturn, hs, hmem] using h
          subst h2
          exact addPendingReturn_scheduled_skips _ t hs p2 now2
      · refine ⟨by simp [addPendingReturn, hs, hmem], ?_, ?_⟩
        · refine ⟨⟨some t, insert parentKey existing.returns⟩,
            Or.inr ⟨by simp [addPendingReturn, hs, hmem], Finset.mem_insert_self _ _, by simp⟩⟩
        · intro r' h p2 now2
          have h2 : (⟨some t, insert parentKey existing.returns⟩ : PRec) = r' := by
            simpa [addPendingReturn, hs, hmem] using h
          subst h2
          exact addPendingReturn_scheduled_skips _ t rfl p2 now2

/-- C2 witness: a first waiter of an unscheduled child invokes `scheduleJob`
and stores a scheduled record; a second waiter of the stored record does
not schedule again. -/
theorem addPendingReturn_spec_witness :
    (addPendingReturn (some ⟨none, ∅⟩) "p" 5).1 = some ⟨some 5, {"p"}⟩ ∧
    (addPendingReturn (some ⟨some 5, ({"p"} : Finset String)⟩) "q" 8).2 = false := by
  refine ⟨by decide, ?_⟩
  exact (addPendingReturn_spec (some ⟨none, ∅⟩) "p" 5).2.2 ⟨some 5, {"p"}⟩
    (by decide) "q" 8

/-- Result of one run of `Memory.withPendingReturnsRemove`: the argument
sets passed to `fn` on the successive attempts, the overall outcome, and the
content of the `pending_returns` record at the moment the call completed. -/
structure WprOut where
  passes : List (Finset String)
  result : Except Err Unit
  final : Option PRec

/-- The `withCas` body loop of `Memory.withPendingReturnsRemove` (memory.ts
lines 149-172) under concurrent interference: `obs i` is the record read by
`store.get` on attempt `i` (`none` = NotFound, in which case `fn` receives
the empty set and the body returns), `del i` the record present when that
attempt's `compareAndDelete` executes.  The delete succeeds iff the present
record is byte-identical to the one read.  `handled` accumulates the parents
passed to `fn` on earlier attempts and is subtracted from each newly read
waiter set.  `fuel` is `CAS_RETRY_LIMIT + 1 - attempt`, as in `withCas`. -/
def wprGo (obs del : Nat → Option PRec) :
    Nat → Nat → Finset String → WprOut
  | 0, _, _ => ⟨[], Except.ok (), none⟩
  | fuel + 1, attempt, handled =>
    match obs attempt with
    | none => ⟨[∅], Except.ok (), none⟩
    | some r =>
      let handles := r.returns \ handled
      if del attempt = some r then
        ⟨[handles], Except.ok (), none⟩
      else if attempt = CAS_RETRY_LIMIT then
        ⟨[handles], Except.error (Err.casRetryLimit CAS_RETRY_LIMIT), del attempt⟩
      else
        let out := wprGo obs del fuel (attempt + 1) (handled ∪ handles)
        ⟨handles :: out.passes, out.result, out.final⟩

/-- `Memory.withPendingReturnsRemove` run from attempt 0 with nothing
handled yet. -/
def wprRun (obs del : Nat → Option PRec) : WprOut :=
  wprGo obs del (CAS_RETRY_LIMIT + 1) 0 ∅

theorem wprGo_disjoint (obs del : Nat → Option PRec) :
    ∀ fuel attempt handled,
      (∀ s ∈ (wprGo obs del fuel attempt handled).passes, Disjoint s handled) ∧
      (wprGo obs del fuel attempt handled).passes.Pairwise Disjoint := by
  intro fuel
  induction fuel with
  | zero => intro attempt handled; exact ⟨by simp [wprGo], by simp [wprGo]⟩
  | succ fuel ih =>
    intro attempt handled
    cases hobs : obs attempt with
    | none =>
      refine ⟨?_, ?_⟩
      · intro s hs
        simp only [wprGo, hobs] at hs
        simp only [List.mem_singleton] at hs
        simp [hs]
      · simp [wprGo, hobs]
    | some r =>
      by_cases hdel : del attempt = some r
      · refine ⟨?_, ?_⟩
        · intro s hs
          simp only [wprGo, hobs, if_pos hdel] at hs
          simp only [List.mem_singleton] at hs
          simp [hs, Finset.sdiff_disjoint]
        · simp [wprGo, hobs, if_pos hdel]
      · by_cases hlim : attempt = CAS_RETRY_LIMIT
        · refine ⟨?_, ?_⟩
          · intro s hs
            simp only [wprGo, hobs, if_neg hdel, if_pos hlim] at hs
            simp only [List.mem_singleton] at hs
            simp [hs, Finset.sdiff_disjoint]
          · simp [wprGo, hobs, if_neg hdel, if_pos hlim]
        · have hrec := ih (attempt + 1) (handled ∪ (r.returns \ handled))
          refine ⟨?_, ?_⟩
          · intro s hs
            simp only [wprGo, hobs, if_neg hdel, if_neg hlim] at hs
            simp only [List.mem_cons] at hs
            rcases hs with hs | hs
            · simp [hs, Finset.sdiff_disjoint]
            · have := hrec.1 s hs
              exact Finset.disjoint_of_subset_right Finset.subset_union_left this
          · simp only [wprGo, hobs, if_neg hdel, if_neg hlim]
            refine List.pairwise_cons.mpr ⟨?_, hrec.2⟩
            intro s hs
            have := hrec.1 s hs
            have h2 : Disjoint s (r.returns \ handled) :=
              Finset.disjoint_of_subset_right Finset.subset_union_right this
            exact h2.symm

theorem wprGo_deleted (obs del : Nat → Option PRec) :
    ∀ fuel attempt handled,
      (wprGo obs del fuel attempt handled).result = Except.ok () →
      (wprGo obs del fuel attempt handled).final = none := by
  intro fuel
  induction fuel with
  | zero => intro attempt handled _; simp [wprGo]
  | succ fuel ih =>
    intro attempt handled hok
    cases hobs : obs attempt with
    | none => simp [wprGo, hobs]
    | some r =>
      by_cases hdel : del attempt = some r
      · simp [wprGo, hobs, if_pos hdel]
      · by_cases hlim : attempt = CAS_RETRY_LIMIT
        · simp only [wprGo, hobs, if_neg hdel, if_pos hlim] at hok
          simp at hok
        · simp only [wprGo, hobs, if_neg hdel, if_neg hlim] at hok ⊢
          exact ih (attempt + 1) (handled ∪ (r.returns \ handled)) hok

/-- C1: for `withPendingReturnsRemove(childKey, fn)` — if no
`pending_returns` record exists, `fn` is invoked exactly once with the empty
set and the call returns; the sets passed to `fn` across all CAS retries are
pairwise disjoint (each registered parent is handled at most once, each
retry passing only the waiters not already handled); when the record is read
and deleted without interference `fn` receives exactly the registered
waiters; and on successful completion the record is gone. -/
theorem withPendingReturnsRemove_spec (obs del : Nat → Option PRec) :
    (obs 0 = none → wprRun obs del = ⟨[∅], Except.ok (), none⟩) ∧
    (wprRun obs del).passes.Pairwise Disjoint ∧
    (∀ r, obs 0 = some r → del 0 = some r →
       wprRun obs del = ⟨[r.returns], Except.ok (), none⟩) ∧
    ((wprRun obs del).result = Except.ok () → (wprRun obs del).final = none) := by
  refine ⟨?_, ?_, ?_, ?_⟩
  · intro h0
    simp [wprRun, wprGo, h0]
  · exact (wprGo_disjoint obs del (CAS_RETRY_LIMIT + 1) 0 ∅).2
  · intro r h0 hd
    simp [wprRun, wprGo, h0, hd]
  · exact wprGo_deleted obs del (CAS_RETRY_LIMIT + 1) 0 ∅

/-- C1 witness: with no record present, `fn` runs once on the empty set and
the call succeeds with the record absent. -/
theorem withPendingReturnsRemove_spec_witness :
    wprRun (fun _ => none) (fun _ => none) = ⟨[∅], Except.ok (), none⟩ :=
  (withPendingReturnsRemove_spec (fun _ => none) (fun _ => none)).1 rfl

/-- `Memory.getValue` (memory.ts lines 62-69) with the outcome of the
underlying store read given: an absent value raises `ValueNotFound` for the
call's memo key; a store error propagates. -/
def getValue {B : Type} (memoKey : String) (read : Except Err (Option B)) :
    Except Err B :=
  match read with
  | .error e => Except.error e
  | .ok none => Except.error (Err.valueNotFound memoKey)
  | .ok (some v) => Except.ok v

/-- `Task.invoke` inside worker context (task.ts lines 17-27): construct the
call for `(taskName, args)`, read the cached value, decode on success;
convert `ValueNotFound` into `Defer([call])` (the call identified by its
memo key); rethrow any other error.  `store` gives the outcome of the value
read per memo key, `decode` is the codec's `decodeReturn`. -/
def invokeWorker {B R : Type} (store : String → Except Err (Option B))
    (decode : B → R) (taskName : String) (args : List Json) : Except Err R :=
  let call := createCall taskName args
  match getValue call.memoKey (store call.memoKey) with
  | .ok v => Except.ok (decode v)
  | .error e =>
    if e.isValueNotFound then Except.error (Err.deferSignal [call.memoKey])
    else Except.error e

/-- C5: in worker context `task.invoke(args)` returns the codec-decoded
stored value when one exists for the call's memo key, raises `Defer`
carrying exactly that one call when the value is absent, and propagates any
error other than `ValueNotFound` unchanged. -/
theorem task_invoke_worker {B R : Type} (store : String → Except Err (Option B))
    (decode : B → R) (taskName : String) (args : List Json) :
    (∀ v, store (createCall taskName args).memoKey = Except.ok (some v) →
       invokeWorker store decode taskName args = Except.ok (decode v)) ∧
    (store (createCall taskName args).memoKey = Except.ok none →
       invokeWorker store decode taskName args =
         Except.error (Err.deferSignal [(createCall taskName args).memoKey])) ∧
    (∀ e, e.isValueNotFound = false →
       store (createCall taskName args).memoKey = Except.error e →
       invokeWorker store decode taskName args = Except.error e) := by
  refine ⟨?_, ?_, ?_⟩
  · intro v hv
    simp [invokeWorker, getValue, hv]
  · intro hnone
    simp [invokeWorker, getValue, hnone, Err.isValueNotFound]
  · intro e he herr
    simp [invokeWorker, getValue, herr, he]

/-- C5 witness: a cached value decodes; a missing value defers with the one
call. -/
theorem task_invoke_worker_witness :
    ((fun _ => Except.ok (some 41) : String → Except Err (Option Nat))
        (createCall "f" [Json.num 3]).memoKey = Except.ok (some 41)) ∧
    invokeWorker (fun _ => Except.ok (some 41)) (fun b => b + 1) "f"
      [Json.num 3] = Except.ok 42 := by
  refine ⟨rfl, ?_⟩
  exact (task_invoke_worker (fun _ => Except.ok (some 41)) (fun b => b + 1)
    "f" [Json.num 3]).1 41 rfl

/-- Full system state seen by a task invocation: the decoded-value store plus
the counters-and-queue state. -/
structure SysSt (B : Type) where
  values : String → Option B
  eng : EngSt

/-- `Task.invoke` (task.ts lines 13-28): outside worker context the user
function runs directly with no engine interaction; inside worker context the
memoized read path runs.  Returns the outcome and the state after the
call. -/
def invoke {B R : Type} (isWorkerCtx : Bool) (fn : List Json → R)
    (decode : B → R) (taskName : String) (args : List Json) (st : SysSt B) :
    Except Err R × SysSt B :=
  if isWorkerCtx = false then (Except.ok (fn args), st)
  else (invokeWorker (fun k => Except.ok (st.values k)) decode taskName args, st)

/-- C9: outside worker context (no worker singleton registered),
`task.invoke(args)` returns exactly `fn(args)` and performs no store or
queue operation — values, counters and queue are unchanged. -/
theorem task_invoke_outside {B R : Type} (st : SysSt B) (fn : List Json → R)
    (decode : B → R) (taskName : String) (args : List Json) :
    invoke false fn decode taskName args st = (Except.ok (fn args), st) ∧
    (invoke false fn decode taskName args st).2.values = st.values ∧
    (invoke false fn decode taskName args st).2.eng.counters = st.eng.counters ∧
    (invoke false fn decode taskName args st).2.eng.queue = st.eng.queue :=
  ⟨rfl, rfl, rfl, rfl⟩

/-- Constructing a `Wrrrker` (wrrrker.ts lines 11-16): raise
`WorkerAlreadyRunning` when the engine already holds a worker singleton,
else register the singleton (`true`). -/
def mkWrrrker (workerSingleton : Bool) : Except Err Bool :=
  if workerSingleton then Except.error Err.workerAlreadyRunning
  else Except.ok true

/-- `Brrr.isWorkerContext()` (brrr.ts lines 39-43): the worker singleton is
set. -/
def isWorkerContext (workerSingleton : Bool) : Bool := workerSingleton

/-- `Brrr.wrrrk()` (brrr.ts lines 169-172): `await using` constructs the
worker — registering the singleton — and runs `loop()`, whose behaviour is
given as `loopOutcome`; disposal clears the singleton whether the loop
returns cleanly or throws.  Returns the call's outcome together with the
engine's worker-singleton flag afterwards. -/
def wrrrk (workerSingleton : Bool) (loopOutcome : Except Err Unit) :
    Except Err Unit × Bool :=
  match mkWrrrker workerSingleton with
  | .error e => (Except.error e, workerSingleton)
  | .ok _ => (loopOutcome, false)

/-- C10: `wrrrk()` registers the worker singleton on entry and always clears
it on exit — for every loop outcome, clean or error, `isWorkerContext` is
false afterwards and the outcome is the loop's own; hence a second,
sequential `wrrrk()` never raises `WorkerAlreadyRunning`, while constructing
a worker while one is registered does. -/
theorem wrrrk_clears_singleton (loopOutcome loopOutcome2 : Except Err Unit) :
    isWorkerContext (wrrrk false loopOutcome).2 = false ∧
    (wrrrk false loopOutcome).1 = loopOutcome ∧
    (wrrrk (wrrrk false loopOutcome).2 loopOutcome2).1 = loopOutcome2 ∧
    mkWrrrker true = Except.error Err.workerAlreadyRunning :=
  ⟨rfl, rfl, rfl, rfl⟩

/-- C7 counterexample: when the body always raises `CompareMismatch`,
`withCas` invokes it 101 times — more than the claimed bound of
`CAS_RETRY_LIMIT = 100`. -/
theorem withCas_101_invocations :
    (withCasRun (fun _ => Except.error Err.compareMismatch)).2 = 101 ∧
    ¬ ((withCasRun (fun _ => Except.error Err.compareMismatch)).2 ≤ 100) := by
  decide

end Brrr
